import Mathlib

/-!
Verification of the lotio text auto-fit and layout-override engine
(src/src/text).  The development shallowly embeds, from the C++ source:

* the optimal-size solver `calculateOptimalFontSize` (text_sizing.cpp),
  instrumented with the list of probed sizes so that measurement-call
  counts are provable;
* the multi-line measurement wrapper `measureTextWidth` (font_utils.cpp),
  parametrised by an abstract per-line width oracle standing for the Skia
  shaping/rasterising collaborators;
* the override parser's validation and storage logic
  (layer_overrides.cpp) together with the `std::map` insertion order;
* the string-replacement helpers (string_utils.cpp);
* the document mutator `modifyTextLayerInJson` (json_manipulation.cpp)
  at the byte level over `List Char`, including its layer/style-object
  location scanning; the `std::regex` search for the layer name is
  modelled for layer names containing no regex metacharacters, which is
  the shape the search takes on such names;
* the position-compensation arithmetic of `processLayerOverrides`
  (text_processor.cpp) composed with `adjustTextAnimatorPosition`
  (json_manipulation.cpp) at the level of a single keyframe X value.

Widths and font sizes are rationals (the C++ uses `float`; the claims
under study are about branch structure and exact value-level arithmetic,
not rounding).  Decimal re-formatting of the size written back into the
document (std::fixed, one digit) is abstracted by passing the already
formatted numeral text to the mutator.
-/

/-- State step of the upward binary search of `calculateOptimalFontSize`
(text_sizing.cpp lines 35-46), instrumented with the probe list: state is
`(min, max, best)` and every iteration measures the midpoint.  The loop
has no early exit. -/
def upLoopT (w : ℚ → ℚ) (target : ℚ) : Nat → ℚ → ℚ → ℚ → List ℚ → ℚ × List ℚ
  | 0, _, _, best, ps => (best, ps)
  | Nat.succ n, mn, mx, best, ps =>
    let t := (mn + mx) / 2
    if w t ≤ target then upLoopT w target n t mx t (ps ++ [t])
    else upLoopT w target n mn t best (ps ++ [t])

/-- Downward binary search of `calculateOptimalFontSize` (text_sizing.cpp
lines 63-86): same step as the upward search, but after each iteration the
loop breaks as soon as the bracket `max - min` has narrowed below 0.1. -/
def downLoopT (w : ℚ → ℚ) (target : ℚ) : Nat → ℚ → ℚ → ℚ → List ℚ → ℚ × List ℚ
  | 0, _, _, best, ps => (best, ps)
  | Nat.succ n, mn, mx, best, ps =>
    let t := (mn + mx) / 2
    if w t ≤ target then
      if mx - t < 1/10 then (t, ps ++ [t]) else downLoopT w target n t mx t (ps ++ [t])
    else
      if t - mn < 1/10 then (best, ps ++ [t]) else downLoopT w target n mn t best (ps ++ [t])

/-- Embedding of `calculateOptimalFontSize` (text_sizing.cpp lines 6-97),
instrumented with the list of sizes at which `measureTextWidth` is called.
`w s` stands for `measureTextWidth(fontMgr, family, style, name, s, text,
mode)` for the fixed font and text of the invocation; `size` is
`fontInfo.size`, `minSize`/`maxSize` come from the layer override.
Branches, iteration counts (10 upward, 15 downward) and the `-1` fallback
signal follow the source. -/
def calculateOptimalFontSizeT (w : ℚ → ℚ) (size minSize maxSize targetWidth : ℚ) :
    ℚ × List ℚ :=
  if targetWidth ≤ 0 then (size, [])
  else if w size ≤ targetWidth then
    let r := upLoopT w targetWidth 10 size maxSize size [size]
    (min r.1 maxSize, r.2)
  else if targetWidth < w minSize then
    (-1, [size, minSize])
  else
    downLoopT w targetWidth 15 minSize size minSize [size, minSize]

/-- Result of the solver, discarding the probe instrumentation. -/
def calculateOptimalFontSize (w : ℚ → ℚ) (size minSize maxSize targetWidth : ℚ) : ℚ :=
  (calculateOptimalFontSizeT w size minSize maxSize targetWidth).1

/-- Fallback-text sizing of the orchestrator (text_processor.cpp lines
293-329): `wfb s` measures the fallback text at size `s`.  If the fallback
overflows even at `minSize` the orchestrator accepts `minSize` anyway;
otherwise it maximises upward from `minSize` with the same 10-iteration
binary search and clamps to `maxSize`. -/
def fallbackOptimalSize (wfb : ℚ → ℚ) (minSize maxSize target : ℚ) : ℚ :=
  if target < wfb minSize then minSize
  else min (upLoopT wfb target 10 minSize maxSize minSize []).1 maxSize

/-- Per-layer size decision of the orchestrator (text_processor.cpp lines
261-330): run the solver on the primary text; on a `-1` answer re-run the
fallback-text sizing. -/
def layerOptimalSize (w wfb : ℚ → ℚ) (size minSize maxSize target : ℚ) : ℚ :=
  let o := calculateOptimalFontSize w size minSize maxSize target
  if o < 0 then fallbackOptimalSize wfb minSize maxSize target else o

/-- Line splitting of `measureTextWidth` (font_utils.cpp lines 145-235):
the text is cut at every carriage return or line feed, a `\r\n` pair
counting as one break; the accumulator carries the current line in
reverse. -/
def splitLinesAux : List Char → List Char → List (List Char)
  | [], cur => [cur.reverse]
  | '\r' :: '\n' :: rest, cur => cur.reverse :: splitLinesAux rest []
  | '\r' :: rest, cur => cur.reverse :: splitLinesAux rest []
  | '\n' :: rest, cur => cur.reverse :: splitLinesAux rest []
  | c :: rest, cur => splitLinesAux rest (c :: cur)

/-- Embedding of `measureTextWidth` (font_utils.cpp lines 106-242): split
the text into lines, measure every non-empty line with the per-line width
oracle `lw` (the Skia glyph-advance / text-blob / rasterisation
measurement, covering every font family, style, name, size and
measurement mode), and return the maximum, starting from 0.  Empty lines
are never measured. -/
def measureTextWidth (lw : List Char → ℚ) (text : List Char) : ℚ :=
  ((splitLinesAux text []).filter (fun l => !l.isEmpty)).foldl (fun m l => max m (lw l)) 0

/-- Boolean test that `pre` is an initial segment of `s` (used for the
`std::string::find` model). -/
def leadsWith : List Char → List Char → Bool
  | [], _ => true
  | _ :: _, [] => false
  | a :: as, b :: bs => a = b && leadsWith as bs

/-- Model of `std::string::find(pat, start)`: the least index `i ≥ start`
at which `pat` occurs in `s`, or `none` for `npos`. -/
def strFindFrom (s pat : List Char) (start : Nat) : Option Nat :=
  (List.range (s.length + 1)).find? (fun i => decide (start ≤ i) && leadsWith pat (s.drop i))

/-- Model of `std::string::find(c, start)` for a single character. -/
def charFindFrom (s : List Char) (c : Char) (start : Nat) : Option Nat :=
  strFindFrom s [c] start

/-- Occurrence test: does `pat` occur contiguously anywhere in `s`? -/
def containsSeq (pat : List Char) : List Char → Bool
  | [] => leadsWith pat []
  | c :: rest => leadsWith pat (c :: rest) || containsSeq pat rest

/-- Embedding of `replaceAllInPlace` (string_utils.cpp lines 3-15), fuel
recursion: scan left to right, replace each occurrence of `frm`, continue
after the replacement text. -/
def replaceAllGo (frm rep : List Char) : Nat → List Char → List Char
  | _, [] => []
  | 0, s => s
  | Nat.succ f, c :: rest =>
    if leadsWith frm (c :: rest) then rep ++ replaceAllGo frm rep f (List.drop frm.length (c :: rest))
    else c :: replaceAllGo frm rep f rest

/-- Wrapper for `replaceAllInPlace`: an empty needle leaves the string
unchanged, as in the source. -/
def replaceAll (s frm rep : List Char) : List Char :=
  if frm.isEmpty then s else replaceAllGo frm rep s.length s

/-- Embedding of `replaceCharInPlace` (string_utils.cpp lines 17-26). -/
def replaceChar (frm rep : Char) (s : List Char) : List Char :=
  s.map fun c => if c = frm then rep else c

/-- Literal escape sequence for U+0003 as it appears in the override file:
the six characters backslash, u, 0, 0, 0, 3. -/
def etxEscape : List Char := ['\\', 'u', '0', '0', '0', '3']

/-- ETX normalisation applied by the parser to the `value` field
(layer_overrides.cpp lines 266-268): the literal escape sequence and the
raw ETX byte are both turned into a carriage return. -/
def etxNormalize (s : List Char) : List Char :=
  replaceChar '\x03' '\r' (replaceAll s etxEscape ['\r'])

/-- Per-layer text override as parsed from the override document
(layer_overrides.h). -/
structure LayerOverride where
  minSize : ℚ
  maxSize : ℚ
  fallbackText : List Char
  textBoxWidth : ℚ
  value : List Char
deriving DecidableEq

/-- Embedding of `validateTextLayerConfig` (layer_overrides.cpp lines
39-63): reject `maxSize ≤ minSize` when both bounds are positive, and
reject any negative bound or box width. -/
def validateTextLayerConfig (c : LayerOverride) : Bool :=
  if 0 < c.minSize ∧ 0 < c.maxSize ∧ c.maxSize ≤ c.minSize then false
  else if c.minSize < 0 then false
  else if c.maxSize < 0 then false
  else if c.textBoxWidth < 0 then false
  else true

/-- Construction of a `LayerOverride` from the raw extracted fields
(layer_overrides.cpp lines 259-268): only the `value` field is passed
through `etxNormalize` before storage. -/
def mkLayerOverride (minSize maxSize : ℚ) (fallbackText : List Char) (textBoxWidth : ℚ)
    (value : List Char) : LayerOverride :=
  ⟨minSize, maxSize, fallbackText, textBoxWidth, etxNormalize value⟩

/-- Ordered insertion mirroring `std::map<std::string, ...>::operator[]`
followed by assignment: keys are kept sorted by `<` and an existing key is
overwritten. -/
def mapInsert : List (String × LayerOverride) → String → LayerOverride →
    List (String × LayerOverride)
  | [], k, v => [(k, v)]
  | (k', v') :: t, k, v =>
    if k < k' then (k, v) :: (k', v') :: t
    else if k = k' then (k, v) :: t
    else (k', v') :: mapInsert t k v

/-- Entry-storage stage of `parseLayerOverrides` (layer_overrides.cpp
lines 239-279): the entries found in the file, in file order, are
validated one by one; invalid entries are skipped and valid ones inserted
into the `std::map`. -/
def parseLayerOverridesEntries (es : List (String × LayerOverride)) :
    List (String × LayerOverride) :=
  es.foldl (fun m e => if validateTextLayerConfig e.2 then mapInsert m e.1 e.2 else m) []

/-- Order in which `processLayerOverrides` applies text mutations
(text_processor.cpp lines 213 and 339-341): the first pass walks the
override map in its iteration order recording a modification for each
layer that survives the font-info and text checks (abstracted by
`processed`), and the second pass applies them in reverse. -/
def modificationOrder (m : List (String × LayerOverride)) (processed : String → Bool) :
    List String :=
  ((m.map Prod.fst).filter processed).reverse

/-- Per-keyframe X update of `adjustTextAnimatorPosition`
(json_manipulation.cpp lines 126-135), applied to each keyframe whose
starting X coordinate is negative: shift left by `widthDiff` when
`widthDiff > 0.1`, otherwise leave the coordinate alone. -/
def adjustXValue (widthDiff x : ℚ) : ℚ :=
  if 1/10 < widthDiff then x - widthDiff else x

/-- The same update including the early-return gate of
`adjustTextAnimatorPosition` (json_manipulation.cpp line 16): a width
difference below 0.1 in magnitude leaves the document untouched. -/
def adjustTextAnimatorPositionX (widthDiff x : ℚ) : ℚ :=
  if |widthDiff| < 1/10 then x else adjustXValue widthDiff x

/-- Pipeline-level keyframe X update (text_processor.cpp lines 344-351):
the orchestrator computes `widthDiff = newW - originalW` and, when its
magnitude exceeds 0.1, calls `adjustTextAnimatorPosition` with the
absolute value `|widthDiff|` as the shift. -/
def keyframeXAfterModification (originalW newW x : ℚ) : ℚ :=
  if 1/10 < |newW - originalW| then adjustTextAnimatorPositionX |newW - originalW| x else x

/-- Step measurement used as a concrete monotone width function: width 0
up to size 10 and width 1000 beyond. -/
def stepMeasure (s : ℚ) : ℚ := if s ≤ 10 then 0 else 1000

/-- Character class of the C++ `std::regex` `\s` (default locale): space,
tab, newline, vertical tab, form feed, carriage return. -/
def isWsRegex (c : Char) : Bool :=
  c = ' ' || c = '\t' || c = '\n' || c = '\x0b' || c = '\x0c' || c = '\r'

/-- Whitespace characters skipped explicitly by the mutator's scanning
loops (space, tab, newline, carriage return). -/
def isWsJson (c : Char) : Bool :=
  c = ' ' || c = '\t' || c = '\n' || c = '\r'

/-- Number of leading characters of `l` satisfying `isWsRegex`. -/
def wsCount (l : List Char) : Nat := (l.takeWhile isWsRegex).length

/-- Match of the pattern `"nm"\s*:\s*"<nm>"` at index `i` of `s`, for a
layer name `nm` containing no regex metacharacters. -/
def nmPatternAt (s nm : List Char) (i : Nat) : Bool :=
  leadsWith ("\"nm\"".toList) (s.drop i) &&
  (let j := i + 4 + wsCount (s.drop (i + 4))
   match s.get? j with
   | some ':' =>
     let k := j + 1 + wsCount (s.drop (j + 1))
     leadsWith ('"' :: nm ++ ['"']) (s.drop k)
   | _ => false)

/-- Leftmost match of the layer-name regex, as `std::regex_search`
reports it (json_manipulation.cpp lines 196-201). -/
def regexFindNm (s nm : List Char) : Option Nat :=
  (List.range (s.length + 1)).find? (fun i => nmPatternAt s nm i)

/-- Fallback plain scan for the layer name (json_manipulation.cpp lines
203-221): walk the occurrences of `"nm"`, read the quoted name after the
following colon, stop at the first equal name.  The `nmPos < length - 100`
bound uses `size_t` arithmetic, hence is vacuous for documents shorter
than 100 bytes. -/
def nmFallbackScan (s nm : List Char) : Nat → Option Nat → Option Nat
  | 0, _ => none
  | _, none => none
  | Nat.succ f, some nmPos =>
    if s.length < 100 || nmPos < s.length - 100 then
      let hit :=
        match charFindFrom s ':' nmPos with
        | some colonPos =>
          if colonPos < nmPos + 20 then
            match charFindFrom s '"' colonPos with
            | some nameStart =>
              match charFindFrom s '"' (nameStart + 1) with
              | some nameEnd =>
                ((s.drop (nameStart + 1)).take (nameEnd - nameStart - 1) == nm)
              | none => false
            | none => false
          else false
        | none => false
      if hit then some nmPos
      else nmFallbackScan s nm f (strFindFrom s ("\"nm\"".toList) (nmPos + 1))
    else none

/-- Layer-name location of `modifyTextLayerInJson` (json_manipulation.cpp
lines 193-222): the regex search first, then the plain scan. -/
def locateNm (s nm : List Char) : Option Nat :=
  match regexFindNm s nm with
  | some p => some p
  | none => nmFallbackScan s nm (s.length + 1) (strFindFrom s ("\"nm\"".toList) 0)

/-- Advance an index while the character satisfies `p`, staying below
`limit` (and below the end of the string), with explicit fuel. -/
def advanceWhileLt (s : List Char) (p : Char → Bool) (limit : Nat) : Nat → Nat → Nat
  | i, 0 => i
  | i, Nat.succ f =>
    if i < limit then
      match s.get? i with
      | some c => if p c then advanceWhileLt s p limit (i + 1) f else i
      | none => i
    else i

/-- Brace-counting scan used by the mutator: starting at `i` with running
count `count`, return the first index below `limit` at which the count
returns to zero after processing the character, or `none`. -/
def braceMatchAux (s : List Char) (limit : Nat) : Nat → Int → Nat → Option Nat
  | _, _, 0 => none
  | i, count, Nat.succ f =>
    if i < limit then
      match s.get? i with
      | some c =>
        let count2 := count + (if c = '{' then 1 else 0) - (if c = '}' then 1 else 0)
        if count2 = 0 then some i else braceMatchAux s limit (i + 1) count2 f
      | none => none
    else none

/-- Matching-brace search from `start` (exclusive upper bound `limit`). -/
def braceMatch (s : List Char) (start limit : Nat) : Option Nat :=
  braceMatchAux s limit start 0 (limit + 1)

/-- Search loop for the text-style object `"s": {` inside the first
keyframe array element (json_manipulation.cpp lines 287-313): find each
occurrence of `"s"` before `searchEnd`, check for a colon within 10
characters and an opening brace after at most 20 characters of
whitespace; return the index of that brace. -/
def findStyleObjStart (s : List Char) (searchEnd : Nat) : Nat → Nat → Option Nat
  | _, 0 => none
  | searchStart, Nat.succ f =>
    if searchStart < searchEnd then
      match strFindFrom s ("\"s\"".toList) searchStart with
      | none => none
      | some sPos =>
        if searchEnd ≤ sPos then none
        else
          let found :=
            match charFindFrom s ':' sPos with
            | some colonPos =>
              if colonPos < sPos + 10 ∧ colonPos < searchEnd then
                let valueStart := advanceWhileLt s isWsJson (colonPos + 20) (colonPos + 1) (s.length + 1)
                match s.get? valueStart with
                | some c => if c = '{' then some valueStart else none
                | none => none
              else none
            | none => none
          match found with
          | some v => some v
          | none => findStyleObjStart s searchEnd (sPos + 1) f
    else none

/-- Location phase of `modifyTextLayerInJson` (json_manipulation.cpp
lines 186-342): find the layer by name, its `"t"` text data within 5000
bytes, `"d"` within 500 of that, `"k"` within 200 of that, the keyframe
array bracket, the first element brace and its matching close (window
1000), then the `"s": {` style object and its matching close brace
(window 2000).  Returns the indices of the style object's braces; every
early return of the source is `none`. -/
def locateStyleObject (json nm : List Char) : Option (Nat × Nat) :=
  match locateNm json nm with
  | none => none
  | some layerNamePos =>
    let searchWindow := min (layerNamePos + 5000) json.length
    match strFindFrom json ("\"t\"".toList) layerNamePos with
    | none => none
    | some textDataPos =>
      if searchWindow < textDataPos then none
      else
        match strFindFrom json ("\"d\"".toList) textDataPos with
        | none => none
        | some dPos =>
          if textDataPos + 500 < dPos then none
          else
            match strFindFrom json ("\"k\"".toList) dPos with
            | none => none
            | some kPos =>
              if dPos + 200 < kPos then none
              else
                match charFindFrom json '[' kPos with
                | none => none
                | some arrayOpen =>
                  match charFindFrom json '{' arrayOpen with
                  | none => none
                  | some elemOpen =>
                    let elemClose :=
                      (braceMatch json elemOpen (min (elemOpen + 1000) json.length)).getD elemOpen
                    match findStyleObjStart json elemClose elemOpen (json.length + 1) with
                    | none => none
                    | some styleOpen =>
                      match braceMatch json styleOpen (min (styleOpen + 2000) json.length) with
                      | none => none
                      | some styleClose =>
                        if styleClose ≤ styleOpen then none else some (styleOpen, styleClose)

/-- Digit-or-dot class used when scanning the numeral of the size field. -/
def isDigitDot (c : Char) : Bool := c.isDigit || c = '.'

/-- Space-or-tab class used when scanning past the numeral. -/
def isSpaceTab (c : Char) : Bool := c = ' ' || c = '\t'

/-- Size-field rewrite inside the extracted style text
(json_manipulation.cpp lines 353-388): find `"s"`, its colon within 10
characters, skip whitespace, and if a digit follows replace the numeral
(and trailing spaces) by the formatted new size; otherwise leave the text
unchanged. -/
def sizeReplace (content newSizeStr : List Char) : List Char :=
  match strFindFrom content ("\"s\"".toList) 0 with
  | none => content
  | some sFieldPos =>
    match charFindFrom content ':' sFieldPos with
    | none => content
    | some colonPos =>
      if colonPos < sFieldPos + 10 then
        let numStart := advanceWhileLt content isWsJson content.length (colonPos + 1) (content.length + 1)
        match content.get? numStart with
        | some c =>
          if c.isDigit then
            let numEnd := advanceWhileLt content isDigitDot content.length numStart (content.length + 1)
            let afterNum := advanceWhileLt content isSpaceTab content.length numEnd (content.length + 1)
            content.take numStart ++ newSizeStr ++ content.drop afterNum
          else content
        | none => content
      else content

/-- Scan for the closing quote of the text value, skipping quotes preceded
by a backslash (json_manipulation.cpp lines 422-428); returns the string
length when no unescaped quote remains. -/
def findUnescapedQuote (s : List Char) : Nat → Nat → Nat
  | i, 0 => i
  | i, Nat.succ f =>
    if i < s.length then
      match s.get? i, s.get? (i - 1) with
      | some q, some p => if q = '"' && !(p = '\\') then i else findUnescapedQuote s (i + 1) f
      | _, _ => i
    else i

/-- Text-field rewrite inside the extracted style text
(json_manipulation.cpp lines 411-449): find `"t"`, its colon within 10
characters, the opening quote within 20, then the unescaped closing
quote, and replace the value between the quotes by the escaped new
text. -/
def textReplace (content escaped : List Char) : List Char :=
  match strFindFrom content ("\"t\"".toList) 0 with
  | none => content
  | some tFieldPos =>
    match charFindFrom content ':' tFieldPos with
    | none => content
    | some colonPos =>
      if colonPos < tFieldPos + 10 then
        match charFindFrom content '"' colonPos with
        | none => content
        | some quoteStart =>
          if quoteStart < colonPos + 20 then
            let quoteEnd := findUnescapedQuote content (quoteStart + 1) (content.length + 1)
            if quoteEnd < content.length then
              content.take (quoteStart + 1) ++ escaped ++ content.drop quoteEnd
            else content
          else content
      else content

/-- Escaping pipeline applied to the new text before insertion
(json_manipulation.cpp lines 390-409): normalise ETX escapes, raw ETX
bytes and line feeds to carriage returns, then escape backslashes,
quotes, carriage returns (as the Unicode escape) and tabs. -/
def escapeText (newText : List Char) : List Char :=
  let t1 := replaceAll newText etxEscape ['\r']
  let t2 := replaceChar '\x03' '\r' t1
  let t3 := replaceChar '\n' '\r' t2
  let e1 := replaceAll t3 ['\\'] ['\\', '\\']
  let e2 := replaceAll e1 ['"'] ['\\', '"']
  let e3 := replaceAll e2 ['\r'] ("\\u000D".toList)
  replaceAll e3 ['\t'] ['\\', 't']

/-- Rewrite of the extracted style-object content: the size field first,
then the text field. -/
def rewriteStyle (content newSizeStr escaped : List Char) : List Char :=
  textReplace (sizeReplace content newSizeStr) escaped

/-- Contiguous slice `[a, b)` of a character list (the C++
`substr(a, b - a)`). -/
def extractRange (s : List Char) (a b : Nat) : List Char := (s.drop a).take (b - a)

/-- Embedding of `modifyTextLayerInJson` (json_manipulation.cpp lines
186-494): locate the style object of the named layer; on failure return
the document unchanged, otherwise rewrite the content between the style
braces and splice it back, keeping everything up to and including the
opening brace and everything from the closing brace onward.
`newSizeStr` is the decimal rendering of the new size (the C++ formats
the float with one fractional digit). -/
def modifyTextLayerInJson (json nm newText newSizeStr : List Char) : List Char :=
  match locateStyleObject json nm with
  | none => json
  | some (o, c) =>
    json.take (o + 1) ++ rewriteStyle (extractRange json (o + 1) c) newSizeStr (escapeText newText)
      ++ json.drop c

/-- Concrete animation document used as a witness input for the mutator:
one text layer named `L1` with the standard `t.d.k[0].s` style object. -/
def docL1 : List Char :=
  ("\x7b\"layers\":[\x7b\"ty\":5,\"nm\":\"L1\",\"t\":\x7b\"d\":\x7b\"k\":[\x7b\"s\":\x7b\"s\":40,\"f\":\"F1\",\"t\":\"HI\"\x7d,\"t\":0\x7d]\x7d\x7d\x7d]\x7d").toList

/-- Concrete animation document with two complete text layers appearing
in the order `b`, then `a` — the opposite of the alphabetical order of
their names.  Both layers carry the full `ty:5` marker and the
`t.d.k[0].s` style object with a font identifier and text content, so
both survive the orchestrator's first-pass checks and are genuinely
mutated. -/
def docBAFull : List Char :=
  ("\x7b\"layers\":[\x7b\"ty\":5,\"nm\":\"b\",\"t\":\x7b\"d\":\x7b\"k\":[\x7b\"s\":\x7b\"s\":40,\"f\":\"F1\",\"t\":\"HI\"\x7d,\"t\":0\x7d]\x7d\x7d\x7d,\x7b\"ty\":5,\"nm\":\"a\",\"t\":\x7b\"d\":\x7b\"k\":[\x7b\"s\":\x7b\"s\":40,\"f\":\"F1\",\"t\":\"HI\"\x7d,\"t\":0\x7d]\x7d\x7d\x7d]\x7d").toList

/-- Concrete valid override configuration (auto-fit between 20 and 80). -/
def cfg0 : LayerOverride := ⟨20, 80, [], 0, ['X']⟩

/-- Concrete invalid override configuration: both bounds positive but
`maxSize ≤ minSize`. -/
def cfgBad : LayerOverride := ⟨20, 10, [], 0, []⟩

/-- Text-layer type check of `extractFontInfoFromJson` (font_utils.cpp
lines 293-331): inside a window around the layer-name position, find a
`"ty"` key (preferring one starting at most 200 bytes before the name,
falling back to a search from the name onward when the first hit lands
more than 500 bytes past it), and accept when the first non-whitespace
character after its colon is `5`. -/
def isTextLayerAt (json : List Char) (layerNamePos : Nat) : Bool :=
  let tySearchStart := if layerNamePos > 1000 then layerNamePos - 1000 else 0
  let tySearchEnd := min (layerNamePos + 3000) json.length
  let layerSection := extractRange json tySearchStart tySearchEnd
  let relPos := layerNamePos - tySearchStart
  let tyOffset := if relPos > 200 then relPos - 200 else 0
  let tyPos :=
    match strFindFrom layerSection ("\"ty\"".toList) tyOffset with
    | none => strFindFrom layerSection ("\"ty\"".toList) relPos
    | some p =>
      if relPos + 500 < p then strFindFrom layerSection ("\"ty\"".toList) relPos else some p
  match tyPos with
  | none => false
  | some p =>
    match charFindFrom layerSection ':' p with
    | none => false
    | some colonPos =>
      if colonPos < p + 30 then
        let numStart := advanceWhileLt layerSection isWsJson layerSection.length (colonPos + 1)
          (layerSection.length + 1)
        match layerSection.get? numStart with
        | some c => c = '5'
        | none => false
      else false

/-- Text-data search loop of `extractFontInfoFromJson` (font_utils.cpp
lines 339-370): walk the occurrences of `"t"`, skipping numeric keyframe
times, until one is followed by an object brace whose 100-byte window
contains `"d"`. -/
def findTextDataPos (json : List Char) (tSearchEnd : Nat) : Nat → Option Nat → Option Nat
  | 0, _ => none
  | _, none => none
  | Nat.succ f, some tPos =>
    if tPos < tSearchEnd then
      let nextp := strFindFrom json ("\"t\"".toList) (tPos + 1)
      match charFindFrom json ':' tPos with
      | some colonPos =>
        if colonPos < tPos + 10 then
          let valueStart := advanceWhileLt json isSpaceTab json.length (colonPos + 1)
            (json.length + 1)
          match json.get? valueStart with
          | some c =>
            if c.isDigit then findTextDataPos json tSearchEnd f nextp
            else if c = '{' then
              (let checkWindow := min (tPos + 100) json.length
               if (strFindFrom (extractRange json tPos checkWindow) ("\"d\"".toList) 0).isSome
               then some tPos
               else findTextDataPos json tSearchEnd f nextp)
            else findTextDataPos json tSearchEnd f nextp
          | none => findTextDataPos json tSearchEnd f nextp
        else findTextDataPos json tSearchEnd f nextp
      | none => findTextDataPos json tSearchEnd f nextp
    else none

/-- Capture of the regex `"<key>"\s*:\s*"([^"]+)"` at index `i`: the
half-open range of the non-empty quoted value, when the pattern matches
there. -/
def stringFieldCapture (s key : List Char) (i : Nat) : Option (Nat × Nat) :=
  if leadsWith ('"' :: key ++ ['"']) (s.drop i) then
    let j := i + key.length + 2 + wsCount (s.drop (i + key.length + 2))
    match s.get? j with
    | some ':' =>
      let k := j + 1 + wsCount (s.drop (j + 1))
      match s.get? k with
      | some q =>
        if q = '"' then
          match charFindFrom s '"' (k + 1) with
          | some endq => if k + 1 < endq then some (k + 1, endq) else none
          | none => none
        else none
      | none => none
    | _ => none
  else none

/-- Leftmost match of the string-field regex, as `std::regex_search`
reports it, returning the captured value (empty when there is none). -/
def regexStringField (s key : List Char) : List Char :=
  match (List.range (s.length + 1)).findSome? (stringFieldCapture s key) with
  | none => []
  | some (a, b) => extractRange s a b

/-- Name and text extraction of `extractFontInfoFromJson` (font_utils.cpp
lines 244-442), restricted to the two fields the orchestrator's
first-pass skip checks read: locate the layer by name, require the
`ty:5` marker, find the text-data object, the `"s"` style position
within 1000 bytes, the style object's braces (window 500), and read the
`"f"` font identifier and `"t"` content from the extracted style text,
normalising the content's line-break encodings; every failure returns
the empty pair (the empty `FontInfo`).  The font-family/style resolution
and the size field are not modelled: they feed only the abstract width
oracle. -/
def extractFontInfoNameText (json nm : List Char) : List Char × List Char :=
  match locateNm json nm with
  | none => ([], [])
  | some layerNamePos =>
    if isTextLayerAt json layerNamePos then
      let tSearchEnd := min (layerNamePos + 5000) json.length
      match findTextDataPos json tSearchEnd (json.length + 1)
          (strFindFrom json ("\"t\"".toList) layerNamePos) with
      | none => ([], [])
      | some textDataPos =>
        match strFindFrom json ("\"s\"".toList) textDataPos with
        | none => ([], [])
        | some textStylePos =>
          if textDataPos + 1000 < textStylePos then ([], [])
          else
            match charFindFrom json '{' textStylePos with
            | none => ([], [])
            | some styleOpen =>
              match braceMatch json styleOpen (min (styleOpen + 500) json.length) with
              | none => ([], [])
              | some styleClose =>
                if styleClose ≤ styleOpen then ([], [])
                else
                  let textStyleJson := extractRange json styleOpen (styleClose + 1)
                  let name := regexStringField textStyleJson ['f']
                  let rawText := regexStringField textStyleJson ['t']
                  let t1 := replaceAll rawText ("\\r".toList) ['\r']
                  let t2 := replaceAll t1 ("\\n".toList) ['\r']
                  let t3 := replaceAll t2 etxEscape ['\r']
                  let t4 := replaceChar '\x03' '\r' t3
                  (name, replaceChar '\n' '\r' t4)
    else ([], [])

/-- First-pass acceptance check of `processLayerOverrides`
(text_processor.cpp lines 217-230): a layer is processed (and hence
recorded for mutation) exactly when the extracted font identifier is
non-empty and the text to use — the override value, or the extracted
text when the override value is empty — is non-empty. -/
def layerProcessed (json : List Char) (cfg : LayerOverride) (nm : String) : Bool :=
  let fi := extractFontInfoNameText json nm.toList
  if fi.1.isEmpty then false
  else
    let textToUse := if cfg.value.isEmpty then fi.2 else cfg.value
    !textToUse.isEmpty

theorem upLoopT_width_le (w : ℚ → ℚ) (target : ℚ) :
    ∀ (n : Nat) (mn mx best : ℚ) (ps : List ℚ), w best ≤ target →
      w (upLoopT w target n mn mx best ps).1 ≤ target := by
  intro n
  induction n with
  | zero => intro mn mx best ps h; simpa [upLoopT] using h
  | succ n ih =>
    intro mn mx best ps h
    simp only [upLoopT]
    split_ifs with hw
    · exact ih _ _ _ _ hw
    · exact ih _ _ _ _ h

theorem upLoopT_bounds (w : ℚ → ℚ) (target lo hi : ℚ) :
    ∀ (n : Nat) (mn mx best : ℚ) (ps : List ℚ),
      lo ≤ mn → mn ≤ hi → lo ≤ mx → mx ≤ hi → lo ≤ best → best ≤ hi →
      lo ≤ (upLoopT w target n mn mx best ps).1 ∧ (upLoopT w target n mn mx best ps).1 ≤ hi := by
  intro n
  induction n with
  | zero => intro mn mx best ps _ _ _ _ h5 h6; exact ⟨by simpa [upLoopT] using h5, by simpa [upLoopT] using h6⟩
  | succ n ih =>
    intro mn mx best ps h1 h2 h3 h4 h5 h6
    have ht1 : lo ≤ (mn + mx) / 2 := by linarith
    have ht2 : (mn + mx) / 2 ≤ hi := by linarith
    simp only [upLoopT]
    split_ifs with hw
    · exact ih _ _ _ _ ht1 ht2 h3 h4 ht1 ht2
    · exact ih _ _ _ _ h1 h2 ht1 ht2 h5 h6

theorem upLoopT_probes (w : ℚ → ℚ) (target : ℚ) :
    ∀ (n : Nat) (mn mx best : ℚ) (ps : List ℚ),
      (upLoopT w target n mn mx best ps).2.length = ps.length + n := by
  intro n
  induction n with
  | zero => intro mn mx best ps; simp [upLoopT]
  | succ n ih =>
    intro mn mx best ps
    simp only [upLoopT]
    split_ifs with hw <;>
      (rw [ih]; simp only [List.length_append, List.length_cons, List.length_nil]; omega)

theorem downLoopT_width_le (w : ℚ → ℚ) (target : ℚ) :
    ∀ (n : Nat) (mn mx best : ℚ) (ps : List ℚ), w best ≤ target →
      w (downLoopT w target n mn mx best ps).1 ≤ target := by
  intro n
  induction n with
  | zero => intro mn mx best ps h; simpa [downLoopT] using h
  | succ n ih =>
    intro mn mx best ps h
    simp only [downLoopT]
    split_ifs with hw hs hs
    · exact hw
    · exact ih _ _ _ _ hw
    · exact h
    · exact ih _ _ _ _ h

theorem downLoopT_bounds (w : ℚ → ℚ) (target lo hi : ℚ) :
    ∀ (n : Nat) (mn mx best : ℚ) (ps : List ℚ),
      lo ≤ mn → mn ≤ hi → lo ≤ mx → mx ≤ hi → lo ≤ best → best ≤ hi →
      lo ≤ (downLoopT w target n mn mx best ps).1 ∧ (downLoopT w target n mn mx best ps).1 ≤ hi := by
  intro n
  induction n with
  | zero => intro mn mx best ps _ _ _ _ h5 h6; exact ⟨by simpa [downLoopT] using h5, by simpa [downLoopT] using h6⟩
  | succ n ih =>
    intro mn mx best ps h1 h2 h3 h4 h5 h6
    have ht1 : lo ≤ (mn + mx) / 2 := by linarith
    have ht2 : (mn + mx) / 2 ≤ hi := by linarith
    simp only [downLoopT]
    split_ifs with hw hs hs
    · exact ⟨ht1, ht2⟩
    · exact ih _ _ _ _ ht1 ht2 h3 h4 ht1 ht2
    · exact ⟨h5, h6⟩
    · exact ih _ _ _ _ h1 h2 ht1 ht2 h5 h6

theorem downLoopT_probes_le (w : ℚ → ℚ) (target : ℚ) :
    ∀ (n : Nat) (mn mx best : ℚ) (ps : List ℚ),
      (downLoopT w target n mn mx best ps).2.length ≤ ps.length + n := by
  intro n
  induction n with
  | zero => intro mn mx best ps; simp [downLoopT]
  | succ n ih =>
    intro mn mx best ps
    simp only [downLoopT]
    split_ifs with hw hs hs <;>
      first
        | (simp only [List.length_append, List.length_cons, List.length_nil]; omega)
        | (refine le_trans (ih _ _ _ _) ?_;
           simp only [List.length_append, List.length_cons, List.length_nil]; omega)

theorem downLoopT_early (w : ℚ → ℚ) (target : ℚ) (n : Nat) (mn mx best : ℚ) (ps : List ℚ)
    (h : mx - mn < 1/5) :
    (downLoopT w target (n + 1) mn mx best ps).2.length = ps.length + 1 := by
  have h1 : mx - (mn + mx) / 2 < 1/10 := by linarith
  have h2 : (mn + mx) / 2 - mn < 1/10 := by linarith
  simp only [downLoopT]
  by_cases hw : w ((mn + mx) / 2) ≤ target
  · rw [if_pos hw, if_pos h1]
    simp
  · rw [if_neg hw, if_pos h2]
    simp

theorem upLoopT_allfit (w : ℚ → ℚ) (target : ℚ) (hall : ∀ s, w s ≤ target) :
    ∀ (n : Nat) (mn mx best : ℚ) (ps : List ℚ),
      (upLoopT w target (n + 1) mn mx best ps).1 = mx - (mx - mn) / 2 ^ (n + 1) := by
  intro n
  induction n with
  | zero =>
    intro mn mx best ps
    simp only [upLoopT, if_pos (hall ((mn + mx) / 2))]
    ring
  | succ n ih =>
    intro mn mx best ps
    conv_lhs => rw [upLoopT]
    rw [if_pos (hall ((mn + mx) / 2))]
    rw [ih]
    rw [pow_succ]
    field_simp
    ring

/-- Monotonicity of the concrete step measurement. -/
theorem stepMeasure_monotone : Monotone stepMeasure := by
  intro a b hab
  unfold stepMeasure
  by_cases ha : a ≤ 10
  · rw [if_pos ha]
    split_ifs <;> norm_num
  · rw [if_neg ha, if_neg (by intro hb; exact ha (le_trans hab hb))]

/-- Counterexample to C1.  A modification that makes the text narrower by
more than 0.1 pixels (original width 100, new width 50) does not leave a
negative keyframe X coordinate unchanged: the pipeline takes the absolute
value of the width difference before calling the position adjustment, so
the X coordinate -679 is moved to -729, while the claim requires it to
stay -679. -/
theorem positionCompensation_narrower_shifted_cx :
    keyframeXAfterModification 100 50 (-679) = -729 ∧ ((-729 : ℚ) ≠ -679) := by
  have habs : |(50 : ℚ) - 100| = 50 := by
    rw [show (50 : ℚ) - 100 = -50 by norm_num, abs_neg]
    exact abs_of_nonneg (by norm_num)
  have habs2 : |(50 : ℚ)| = 50 := abs_of_nonneg (by norm_num)
  constructor
  · unfold keyframeXAfterModification adjustTextAnimatorPositionX adjustXValue
    rw [habs, habs2]
    rw [if_pos (by norm_num : (1 : ℚ)/10 < 50), if_neg (by norm_num : ¬ ((50 : ℚ) < 1/10)),
      if_pos (by norm_num : (1 : ℚ)/10 < 50)]
    norm_num
  · norm_num

/-- Amended C1.  For a text-layer modification with original width
`originalW` and new width `newW`, every negative keyframe starting X
coordinate is shifted further negative by exactly `|newW - originalW|`
whenever `|newW - originalW| > 0.1` — in both the wider and the narrower
direction — and is left unchanged when `|newW - originalW| ≤ 0.1`.  (In
the wider case this agrees with the original claim: the shift is
`newW - originalW` itself.) -/
theorem positionCompensation_amended (originalW newW x : ℚ) (hx : x < 0) :
    (1/10 < |newW - originalW| →
      keyframeXAfterModification originalW newW x = x - |newW - originalW|) ∧
    (|newW - originalW| ≤ 1/10 → keyframeXAfterModification originalW newW x = x) := by
  clear hx
  constructor
  · intro h
    unfold keyframeXAfterModification adjustTextAnimatorPositionX adjustXValue
    rw [if_pos h, if_neg (by rw [abs_abs]; exact not_lt.mpr h.le), if_pos h]
  · intro h
    unfold keyframeXAfterModification
    rw [if_neg (not_lt.mpr h)]

/-- Witness for the amended C1 at concrete inputs: widening by 50 shifts
X = -679 to -729; a width change of 0.05 leaves X unchanged. -/
theorem positionCompensation_amended_witness :
    ((1 : ℚ)/10 < |(150 : ℚ) - 100| ∧
      keyframeXAfterModification 100 150 (-679) = -679 - |(150 : ℚ) - 100|) ∧
    (|(100 + 1/20 : ℚ) - 100| ≤ 1/10 ∧
      keyframeXAfterModification 100 (100 + 1/20) (-679) = -679) := by
  have h1 : |(150 : ℚ) - 100| = 50 := by
    rw [show (150 : ℚ) - 100 = 50 by norm_num]
    exact abs_of_nonneg (by norm_num)
  have h2 : |(100 + 1/20 : ℚ) - 100| = 1/20 := by
    rw [show (100 + 1/20 : ℚ) - 100 = 1/20 by ring]
    exact abs_of_nonneg (by norm_num)
  constructor
  · exact ⟨by rw [h1]; norm_num,
      (positionCompensation_amended 100 150 (-679) (by norm_num)).1 (by rw [h1]; norm_num)⟩
  · exact ⟨by rw [h2]; norm_num,
      (positionCompensation_amended 100 (100 + 1/20) (-679) (by norm_num)).2 (by rw [h2]; norm_num)⟩

/-- If every size strictly above the lower bracket end overflows the
target, the upward search never moves and returns its initial best. -/
theorem upLoopT_allmiss (w : ℚ → ℚ) (target mn : ℚ)
    (h : ∀ s, mn < s → target < w s) :
    ∀ (n : Nat) (mx best : ℚ) (ps : List ℚ), mn < mx →
      (upLoopT w target n mn mx best ps).1 = best := by
  intro n
  induction n with
  | zero => intro mx best ps _; simp [upLoopT]
  | succ n ih =>
    intro mx best ps hmx
    have ht : mn < (mn + mx) / 2 := by linarith
    simp only [upLoopT]
    rw [if_neg (not_le.mpr (h _ ht))]
    exact ih _ _ _ ht

/-- C2 is violated by the code: for a layer override with
`minSize = maxSize = 0` (auto-fit not requested) the orchestrator still
invokes the solver.  With the text measuring 100 pixels at every size
(so it fits the padded 698.4-pixel target), the upward search halves the
size ten times toward `maxSize = 0` and the final clamp
`min(bestSize, maxSize)` returns font size 0 instead of the original 40,
contradicting both the claim and the header documentation
("0 = not specified, no auto-fit"). -/
theorem solver_invoked_zero_sizes_bug :
    calculateOptimalFontSize (fun _ => 100) 40 0 0 (3492/5) = 0 ∧ ((0 : ℚ) ≠ 40) := by
  constructor
  · unfold calculateOptimalFontSize calculateOptimalFontSizeT
    rw [if_neg (by norm_num : ¬ ((3492 : ℚ)/5 ≤ 0)),
      if_pos (by norm_num : (fun _ : ℚ => (100 : ℚ)) 40 ≤ 3492/5)]
    show min (upLoopT (fun _ => 100) (3492/5) 10 40 0 40 [40]).1 0 = 0
    have h := upLoopT_allfit (fun _ => 100) (3492/5) (fun _ => by norm_num) 9 40 0 40 [40]
    rw [show (9 : Nat) + 1 = 10 from rfl] at h
    rw [h]
    rw [min_eq_right (by norm_num : (0 : ℚ) ≤ 0 - (0 - 40) / 2 ^ 10)]
  · norm_num

/-- C4.  When the target width is positive, the text overflows the target
at the current size, and it still overflows at `minSize`, the solver
returns exactly -1 and its probe trace is exactly the two measurements at
the current size and at `minSize`: no further (in particular no smaller)
size is ever probed. -/
theorem solver_minsize_overflow_returns_neg_one (w : ℚ → ℚ)
    (size minSize maxSize targetWidth : ℚ) (htw : 0 < targetWidth)
    (hcur : targetWidth < w size) (hmin : targetWidth < w minSize) :
    calculateOptimalFontSizeT w size minSize maxSize targetWidth = (-1, [size, minSize]) := by
  unfold calculateOptimalFontSizeT
  rw [if_neg (not_le.mpr htw), if_neg (not_le.mpr hcur), if_pos hmin]

/-- Witness for C4: a constant width of 700 against a target of 500. -/
theorem solver_minsize_overflow_returns_neg_one_witness :
    calculateOptimalFontSizeT (fun _ => 700) 40 20 80 500 = (-1, [40, 20]) :=
  solver_minsize_overflow_returns_neg_one (fun _ => 700) 40 20 80 500
    (by norm_num) (by norm_num) (by norm_num)

/-- C5.  For every input with a positive target width the solver
terminates with a constant-bounded number of width measurements: at most
17 in total; exactly 11 (the initial measurement plus exactly 10 probe
iterations, with no early exit) when the text fits at the current size;
and, demonstrating the downward early exit, exactly 3 (initial, minSize
check, one probe) as soon as the initial bracket `size - minSize` is
already below 0.2 points, since the bracket halves below the 0.1-point
threshold after one iteration. -/
theorem solver_probe_count_bounds (w : ℚ → ℚ) (size minSize maxSize targetWidth : ℚ)
    (htw : 0 < targetWidth) :
    (calculateOptimalFontSizeT w size minSize maxSize targetWidth).2.length ≤ 17 ∧
    (w size ≤ targetWidth →
      (calculateOptimalFontSizeT w size minSize maxSize targetWidth).2.length = 11) ∧
    (targetWidth < w size → w minSize ≤ targetWidth → size - minSize < 1/5 →
      (calculateOptimalFontSizeT w size minSize maxSize targetWidth).2.length = 3) := by
  unfold calculateOptimalFontSizeT
  rw [if_neg (not_le.mpr htw)]
  by_cases hfit : w size ≤ targetWidth
  · rw [if_pos hfit]
    have hlen := upLoopT_probes w targetWidth 10 size maxSize size [size]
    refine ⟨by simp [hlen], fun _ => by simpa using hlen,
      fun hh _ _ => absurd hfit (not_le.mpr hh)⟩
  · rw [if_neg hfit]
    by_cases hmin : targetWidth < w minSize
    · rw [if_pos hmin]
      exact ⟨by norm_num, fun hh => absurd hh hfit, fun _ hh _ => absurd hmin (not_lt.mpr hh)⟩
    · rw [if_neg hmin]
      have hle := downLoopT_probes_le w targetWidth 15 minSize size minSize [size, minSize]
      refine ⟨by simpa using hle, fun hh => absurd hh hfit, fun _ _ hbr => ?_⟩
      have := downLoopT_early w targetWidth 14 minSize size minSize [size, minSize] hbr
      simpa using this

/-- Witness for C5: constant zero width against target 1 fits at the
current size, so the solver performs exactly 11 measurements. -/
theorem solver_probe_count_bounds_witness :
    (calculateOptimalFontSizeT (fun _ => 0) 40 20 80 1).2.length ≤ 17 ∧
    (calculateOptimalFontSizeT (fun _ => 0) 40 20 80 1).2.length = 11 := by
  have h := solver_probe_count_bounds (fun _ => 0) 40 20 80 1 (by norm_num)
  exact ⟨h.1, h.2.1 (by norm_num)⟩

/-- Counterexample to C3.  With the monotone step measurement (width 0 up
to size 10, width 1000 beyond), a positive target of 500, current size
10, `minSize = 20` and `maxSize = 80`, the solver returns 10 — different
from -1 but strictly below `minSize`, so the returned size does not lie
in `[minSize, maxSize]` as the claim requires. -/
theorem solver_range_cx :
    Monotone stepMeasure ∧ (0 : ℚ) < 500 ∧
    calculateOptimalFontSize stepMeasure 10 20 80 500 = 10 ∧
    ((10 : ℚ) ≠ -1) ∧ ¬ ((20 : ℚ) ≤ 10) := by
  refine ⟨stepMeasure_monotone, by norm_num, ?_, by norm_num, by norm_num⟩
  unfold calculateOptimalFontSize calculateOptimalFontSizeT
  rw [if_neg (by norm_num : ¬ ((500 : ℚ) ≤ 0)),
    if_pos (by norm_num [stepMeasure] : stepMeasure 10 ≤ 500)]
  show min (upLoopT stepMeasure 500 10 10 80 10 [10]).1 80 = 10
  rw [upLoopT_allmiss stepMeasure 500 10
    (fun s hs => by unfold stepMeasure; rw [if_neg (not_le.mpr hs)]; norm_num)
    10 80 10 [10] (by norm_num)]
  rw [min_eq_left (by norm_num : (10 : ℚ) ≤ 80)]

/-- Amended C3.  Assuming the measurement is non-decreasing in size, for
every solver invocation with a positive target width that returns a size
different from -1, the measured width at the returned size is at most
the target — with no further hypotheses.  Provided additionally that the
original font size lies within the configured bounds
(`minSize ≤ size ≤ maxSize`, without which the search bracket can start
outside the configured interval and the result can leave it, as the
counterexample shows), the returned size lies in `[minSize, maxSize]`
inclusive.  In the unconditional-overflow fallback branch of the
orchestrator the chosen size equals exactly `minSize`. -/
theorem solver_width_and_range_amended (w wfb : ℚ → ℚ)
    (size minSize maxSize targetWidth : ℚ) (hmono : Monotone w)
    (htw : 0 < targetWidth) :
    (calculateOptimalFontSize w size minSize maxSize targetWidth ≠ -1 →
      w (calculateOptimalFontSize w size minSize maxSize targetWidth) ≤ targetWidth) ∧
    (minSize ≤ size → size ≤ maxSize →
      calculateOptimalFontSize w size minSize maxSize targetWidth ≠ -1 →
      minSize ≤ calculateOptimalFontSize w size minSize maxSize targetWidth ∧
      calculateOptimalFontSize w size minSize maxSize targetWidth ≤ maxSize) ∧
    (targetWidth < wfb minSize →
      fallbackOptimalSize wfb minSize maxSize targetWidth = minSize) := by
  refine ⟨?_, ?_, ?_⟩
  · intro hne
    unfold calculateOptimalFontSize calculateOptimalFontSizeT at hne ⊢
    rw [if_neg (not_le.mpr htw)] at hne ⊢
    by_cases hfit : w size ≤ targetWidth
    · rw [if_pos hfit] at hne ⊢
      show w (min (upLoopT w targetWidth 10 size maxSize size [size]).1 maxSize) ≤ targetWidth
      exact le_trans (hmono (min_le_left _ _))
        (upLoopT_width_le w targetWidth 10 size maxSize size [size] hfit)
    · rw [if_neg hfit] at hne ⊢
      by_cases hmin : targetWidth < w minSize
      · rw [if_pos hmin] at hne
        exact absurd rfl hne
      · rw [if_neg hmin] at hne ⊢
        exact downLoopT_width_le w targetWidth 15 minSize size minSize [size, minSize]
          (not_lt.mp hmin)
  · intro hlo hhi hne
    unfold calculateOptimalFontSize calculateOptimalFontSizeT at hne ⊢
    rw [if_neg (not_le.mpr htw)] at hne ⊢
    by_cases hfit : w size ≤ targetWidth
    · rw [if_pos hfit] at hne ⊢
      have hb := upLoopT_bounds w targetWidth size maxSize 10 size maxSize size [size]
        le_rfl hhi hhi le_rfl le_rfl hhi
      show minSize ≤ min (upLoopT w targetWidth 10 size maxSize size [size]).1 maxSize ∧
        min (upLoopT w targetWidth 10 size maxSize size [size]).1 maxSize ≤ maxSize
      rw [min_eq_left hb.2]
      exact ⟨le_trans hlo hb.1, hb.2⟩
    · rw [if_neg hfit] at hne ⊢
      by_cases hmin : targetWidth < w minSize
      · rw [if_pos hmin] at hne
        exact absurd rfl hne
      · rw [if_neg hmin] at hne ⊢
        exact downLoopT_bounds w targetWidth minSize maxSize 15 minSize size minSize
          [size, minSize] le_rfl (le_trans hlo hhi) hlo hhi le_rfl (le_trans hlo hhi)
  · intro hov
    unfold fallbackOptimalSize
    rw [if_pos hov]

/-- Witness for the amended C3 at a fully concrete input: with the
monotone step measurement, original size 10 inside the bounds [5, 80]
and target 500 the solver returns 10, whose width 0 fits and which lies
in the interval; and a fallback measuring 700 at `minSize = 5` against
target 500 overflows unconditionally and yields exactly 5. -/
theorem solver_width_and_range_amended_witness :
    stepMeasure (calculateOptimalFontSize stepMeasure 10 5 80 500) ≤ 500 ∧
    ((5 : ℚ) ≤ calculateOptimalFontSize stepMeasure 10 5 80 500 ∧
      calculateOptimalFontSize stepMeasure 10 5 80 500 ≤ 80) ∧
    fallbackOptimalSize (fun _ => 700) 5 80 500 = 5 := by
  have hres : calculateOptimalFontSize stepMeasure 10 5 80 500 = 10 := by
    unfold calculateOptimalFontSize calculateOptimalFontSizeT
    rw [if_neg (by norm_num : ¬ ((500 : ℚ) ≤ 0)),
      if_pos (by norm_num [stepMeasure] : stepMeasure 10 ≤ 500)]
    show min (upLoopT stepMeasure 500 10 10 80 10 [10]).1 80 = 10
    rw [upLoopT_allmiss stepMeasure 500 10
      (fun s hs => by unfold stepMeasure; rw [if_neg (not_le.mpr hs)]; norm_num)
      10 80 10 [10] (by norm_num)]
    rw [min_eq_left (by norm_num : (10 : ℚ) ≤ 80)]
  have h := solver_width_and_range_amended stepMeasure (fun _ => 700) 10 5 80 500
    stepMeasure_monotone (by norm_num)
  exact ⟨h.1 (by rw [hres]; norm_num), h.2.1 (by norm_num) (by norm_num) (by rw [hres]; norm_num),
    h.2.2 (by norm_num)⟩

/-- C6.  An override entry whose `minSize` and `maxSize` are both
positive with `maxSize ≤ minSize` fails validation and is skipped by the
parser: the resulting map is exactly the one obtained without that entry,
so the entry is absent from the parsed map while all other entries are
still processed. -/
theorem invalid_size_entry_dropped (es1 es2 : List (String × LayerOverride))
    (n : String) (bad : LayerOverride) (h1 : 0 < bad.minSize) (h2 : 0 < bad.maxSize)
    (h3 : bad.maxSize ≤ bad.minSize) :
    parseLayerOverridesEntries (es1 ++ (n, bad) :: es2) =
      parseLayerOverridesEntries (es1 ++ es2) := by
  have hv : validateTextLayerConfig bad = false := by
    unfold validateTextLayerConfig
    rw [if_pos ⟨h1, h2, h3⟩]
  unfold parseLayerOverridesEntries
  rw [List.foldl_append, List.foldl_append, List.foldl_cons]
  simp [hv]

/-- Witness for C6: the concrete invalid entry `minSize = 20, maxSize =
10` between two valid entries is dropped and parsing continues. -/
theorem invalid_size_entry_dropped_witness :
    parseLayerOverridesEntries ([("x", cfg0)] ++ ("y", cfgBad) :: [("z", cfg0)]) =
      parseLayerOverridesEntries ([("x", cfg0)] ++ [("z", cfg0)]) :=
  invalid_size_entry_dropped [("x", cfg0)] [("z", cfg0)] "y" cfgBad
    (by norm_num [cfgBad]) (by norm_num [cfgBad]) (by norm_num [cfgBad])

/-- Splitting a text consisting only of carriage returns and line feeds
produces only the reversed accumulator and empty lines. -/
theorem splitLinesAux_breaks_general :
    ∀ (l cur : List Char), (∀ c ∈ l, c = '\r' ∨ c = '\n') →
      ∀ s ∈ splitLinesAux l cur, s = cur.reverse ∨ s = [] := by
  intro l cur
  induction l, cur using splitLinesAux.induct with
  | case1 cur =>
    intro _ s hs
    simp [splitLinesAux] at hs
    exact Or.inl hs
  | case2 rest cur ih =>
    intro h s hs
    simp only [splitLinesAux, List.mem_cons] at hs
    rcases hs with rfl | hs
    · exact Or.inl rfl
    · rcases ih (fun c hc => h c (by simp [hc])) s hs with h1 | h1
      · exact Or.inr (by simpa using h1)
      · exact Or.inr h1
  | case3 rest cur hne ih =>
    intro h s hs
    rcases rest with _ | ⟨c2, rest2⟩
    · simp only [splitLinesAux, List.mem_cons] at hs
      rcases hs with rfl | hs
      · exact Or.inl rfl
      · exact Or.inr (by simpa [splitLinesAux] using hs)
    · rcases h c2 (by simp) with rfl | rfl
      · simp only [splitLinesAux, List.mem_cons] at hs
        rcases hs with rfl | hs
        · exact Or.inl rfl
        · rcases ih (fun c hc => h c (List.mem_cons_of_mem _ hc)) s hs with h1 | h1
          · exact Or.inr (by simpa using h1)
          · exact Or.inr h1
      · exact absurd rfl (hne rest2)
  | case4 rest cur ih =>
    intro h s hs
    simp only [splitLinesAux, List.mem_cons] at hs
    rcases hs with rfl | hs
    · exact Or.inl rfl
    · rcases ih (fun c hc => h c (List.mem_cons_of_mem _ hc)) s hs with h1 | h1
      · exact Or.inr (by simpa using h1)
      · exact Or.inr h1
  | case5 c rest cur hne1 hne2 hne3 ih =>
    intro h _ _
    rcases h c (by simp) with rfl | rfl
    · exact absurd rfl hne2
    · exact absurd rfl hne3

/-- Splitting a text consisting only of carriage returns and line feeds
produces only empty lines. -/
theorem splitLinesAux_breaks (l : List Char) (h : ∀ c ∈ l, c = '\r' ∨ c = '\n') :
    ∀ s ∈ splitLinesAux l [], s = [] := by
  intro s hs
  rcases splitLinesAux_breaks_general l [] h s hs with h1 | h1
  · simpa using h1
  · exact h1

/-- Measuring a text consisting only of line-break characters yields
width 0 for every per-line width oracle. -/
theorem measureTextWidth_breaks (lw : List Char → ℚ) (text : List Char)
    (h : ∀ c ∈ text, c = '\r' ∨ c = '\n') : measureTextWidth lw text = 0 := by
  unfold measureTextWidth
  have hfe : (splitLinesAux text []).filter (fun l => !l.isEmpty) = [] := by
    rw [List.filter_eq_nil_iff]
    intro a ha
    rw [splitLinesAux_breaks text h a ha]
    simp
  rw [hfe]
  rfl

/-- C10.  For every per-line width oracle (hence for every font family,
style, name, size and measurement mode), measuring a text that is empty
or consists only of carriage returns and line feeds returns width 0;
consequently, for any positive target width, such a text fits at the
current size and (when the current size is at most `maxSize`) the solver
takes the upward branch and grows the size toward `maxSize`, returning
exactly `maxSize - (maxSize - size)/1024`, which lies between the
original size and `maxSize`. -/
theorem measure_linebreak_only_grows (text : List Char)
    (htext : ∀ c ∈ text, c = '\r' ∨ c = '\n') (lws : ℚ → List Char → ℚ)
    (size minSize maxSize targetWidth : ℚ) (htw : 0 < targetWidth) (hsz : size ≤ maxSize) :
    (∀ s, measureTextWidth (lws s) text = 0) ∧
    calculateOptimalFontSize (fun s => measureTextWidth (lws s) text)
        size minSize maxSize targetWidth = maxSize - (maxSize - size) / 1024 ∧
    size ≤ calculateOptimalFontSize (fun s => measureTextWidth (lws s) text)
        size minSize maxSize targetWidth := by
  have hzero : ∀ s, measureTextWidth (lws s) text = 0 :=
    fun s => measureTextWidth_breaks (lws s) text htext
  have hall : ∀ s, (fun s => measureTextWidth (lws s) text) s ≤ targetWidth :=
    fun s => by show measureTextWidth (lws s) text ≤ targetWidth; rw [hzero s]; exact htw.le
  have hcalc : calculateOptimalFontSize (fun s => measureTextWidth (lws s) text)
      size minSize maxSize targetWidth = maxSize - (maxSize - size) / 1024 := by
    unfold calculateOptimalFontSize calculateOptimalFontSizeT
    rw [if_neg (not_le.mpr htw), if_pos (hall size)]
    show min (upLoopT (fun s => measureTextWidth (lws s) text) targetWidth 10
      size maxSize size [size]).1 maxSize = maxSize - (maxSize - size) / 1024
    have h := upLoopT_allfit (fun s => measureTextWidth (lws s) text) targetWidth hall
      9 size maxSize size [size]
    rw [show (9 : Nat) + 1 = 10 from rfl] at h
    rw [h]
    rw [min_eq_left (by rw [show ((2 : ℚ) ^ 10) = 1024 by norm_num]; linarith)]
    rw [show ((2 : ℚ) ^ 10) = 1024 by norm_num]
  exact ⟨hzero, hcalc, by rw [hcalc]; linarith⟩

/-- Witness for C10: the text consisting of a carriage return, a line
feed and a carriage return measures 0 under the constant-5 line oracle,
and the solver grows the size 40 to `80 - 40/1024` within bounds 20-80
against target 100. -/
theorem measure_linebreak_only_grows_witness :
    measureTextWidth ((fun _ l => (5 : ℚ)) 0) ['\r', '\n', '\r'] = 0 ∧
    calculateOptimalFontSize (fun s => measureTextWidth ((fun _ _ => (5 : ℚ)) s) ['\r', '\n', '\r'])
        40 20 80 100 = 80 - (80 - 40) / 1024 ∧
    (40 : ℚ) ≤ calculateOptimalFontSize
        (fun s => measureTextWidth ((fun _ _ => (5 : ℚ)) s) ['\r', '\n', '\r']) 40 20 80 100 := by
  have h := measure_linebreak_only_grows ['\r', '\n', '\r'] (by decide) (fun _ _ => (5 : ℚ))
    40 20 80 100 (by norm_num) (by norm_num)
  exact ⟨h.1 0, h.2.1, h.2.2⟩

/-- Every entry of `mapInsert m k v` either has key `k` or was already in
the map. -/
theorem mapInsert_mem (m : List (String × LayerOverride)) (k : String) (v : LayerOverride) :
    ∀ x ∈ mapInsert m k v, x.1 = k ∨ x ∈ m := by
  induction m with
  | nil =>
    intro x hx
    simp [mapInsert] at hx
    exact Or.inl (by rw [hx])
  | cons e t ih =>
    intro x hx
    rcases e with ⟨k1, v1⟩
    unfold mapInsert at hx
    split_ifs at hx with h1 h2
    · rcases List.mem_cons.mp hx with rfl | hx
      · exact Or.inl rfl
      · exact Or.inr hx
    · rcases List.mem_cons.mp hx with rfl | hx
      · exact Or.inl rfl
      · exact Or.inr (List.mem_cons_of_mem _ hx)
    · rcases List.mem_cons.mp hx with rfl | hx
      · exact Or.inr (List.mem_cons_self _ _)
      · rcases ih x hx with h | h
        · exact Or.inl h
        · exact Or.inr (List.mem_cons_of_mem _ h)

/-- Insertion into a key-sorted association list keeps it key-sorted. -/
theorem mapInsert_sorted (m : List (String × LayerOverride)) (k : String) (v : LayerOverride)
    (hm : List.Pairwise (fun a b : String × LayerOverride => a.1 < b.1) m) :
    List.Pairwise (fun a b : String × LayerOverride => a.1 < b.1) (mapInsert m k v) := by
  induction m with
  | nil => simp [mapInsert]
  | cons e t ih =>
    rcases e with ⟨k1, v1⟩
    rcases List.pairwise_cons.mp hm with ⟨hhead, htail⟩
    unfold mapInsert
    split_ifs with h1 h2
    · refine List.pairwise_cons.mpr ⟨?_, hm⟩
      intro x hx
      rcases List.mem_cons.mp hx with rfl | hx
      · exact h1
      · exact lt_trans h1 (hhead x hx)
    · refine List.pairwise_cons.mpr ⟨?_, htail⟩
      intro x hx
      rw [show k = k1 from h2]
      exact hhead x hx
    · refine List.pairwise_cons.mpr ⟨?_, ih htail⟩
      intro x hx
      rcases mapInsert_mem t k v x hx with h | h
      · rw [h]
        exact lt_of_le_of_ne (not_lt.mp h1) (Ne.symm h2)
      · exact hhead x h

/-- The parsed override map is sorted by layer name, as a `std::map`
iteration is. -/
theorem parseLayerOverridesEntries_sorted (es : List (String × LayerOverride)) :
    List.Pairwise (fun a b : String × LayerOverride => a.1 < b.1)
      (parseLayerOverridesEntries es) := by
  unfold parseLayerOverridesEntries
  suffices h : ∀ (m : List (String × LayerOverride)),
      List.Pairwise (fun a b : String × LayerOverride => a.1 < b.1) m →
      List.Pairwise (fun a b : String × LayerOverride => a.1 < b.1)
        (es.foldl (fun m e => if validateTextLayerConfig e.2 then mapInsert m e.1 e.2 else m) m) by
    exact h [] (by simp)
  induction es with
  | nil => intro m hm; simpa using hm
  | cons e t ih =>
    intro m hm
    rw [List.foldl_cons]
    apply ih
    by_cases hv : validateTextLayerConfig e.2
    · rw [if_pos hv]
      exact mapInsert_sorted m e.1 e.2 hm
    · rw [if_neg hv]
      exact hm

/-- Amended C7.  When multiple text layers are mutated in the same
document, the mutations are applied in reverse order of the override
map's iteration order, i.e. in strictly decreasing lexicographic order of
layer name — not in reverse order of the layers' discovery position in
the document text.  (The two orders coincide only when alphabetical
order happens to agree with document order.) -/
theorem mutation_order_amended (es : List (String × LayerOverride)) (processed : String → Bool) :
    List.Pairwise (fun a b : String => b < a)
      (modificationOrder (parseLayerOverridesEntries es) processed) := by
  unfold modificationOrder
  have h1 := parseLayerOverridesEntries_sorted es
  have h2 : List.Pairwise (fun a b : String => a < b)
      ((parseLayerOverridesEntries es).map Prod.fst) :=
    List.Pairwise.map Prod.fst (fun a b hab => hab) h1
  have h3 : List.Pairwise (fun a b : String => a < b)
      (((parseLayerOverridesEntries es).map Prod.fst).filter processed) :=
    List.Pairwise.sublist (List.filter_sublist _) h2
  exact (List.pairwise_reverse).mpr h3

set_option maxRecDepth 100000 in
/-- Counterexample to C7.  The document `docBAFull` holds two complete
text layers, `b` discovered at position 19 and `a` at position 94, both
of which pass the orchestrator's first-pass checks (`layerProcessed` is
true for both: each has the font identifier `F1` and non-empty text) and
both of which the mutator can locate and rewrite.  With override entries
for both layers (file order `b` then `a`), the parsed `std::map`
iterates `a` before `b`, so the reverse-order second pass mutates `b`
first; the first-mutated layer is thus the one whose definition appears
FIRST in the document, contradicting the claim that the layer appearing
last in the document is mutated first. -/
theorem mutation_order_cx :
    modificationOrder (parseLayerOverridesEntries [("b", cfg0), ("a", cfg0)])
        (layerProcessed docBAFull cfg0) = ["b", "a"] ∧
    layerProcessed docBAFull cfg0 "b" = true ∧
    layerProcessed docBAFull cfg0 "a" = true ∧
    (locateStyleObject docBAFull ['b']).isSome = true ∧
    (locateStyleObject docBAFull ['a']).isSome = true ∧
    regexFindNm docBAFull ['b'] = some 19 ∧
    regexFindNm docBAFull ['a'] = some 94 ∧ (19 < 94) := by
  have hpb : layerProcessed docBAFull cfg0 "b" = true := by decide
  have hpa : layerProcessed docBAFull cfg0 "a" = true := by decide
  refine ⟨?_, hpb, hpa, by decide, by decide, by decide, by decide, by norm_num⟩
  have hv : validateTextLayerConfig cfg0 = true := by
    unfold validateTextLayerConfig cfg0
    rw [if_neg (by norm_num), if_neg (by norm_num), if_neg (by norm_num), if_neg (by norm_num)]
  unfold modificationOrder parseLayerOverridesEntries
  rw [List.foldl_cons, List.foldl_cons, List.foldl_nil]
  rw [if_pos hv, if_pos hv]
  rw [show mapInsert [] ("b", cfg0).1 ("b", cfg0).2 = [("b", cfg0)] from rfl]
  rw [show mapInsert [("b", cfg0)] ("a", cfg0).1 ("a", cfg0).2 = [("a", cfg0), ("b", cfg0)] from by
    unfold mapInsert
    rw [if_pos (by rw [String.lt_iff_toList_lt]; decide : ("a" : String) < "b")]]
  rw [show List.map Prod.fst [("a", cfg0), ("b", cfg0)] = ["a", "b"] from rfl]
  rw [show List.filter (layerProcessed docBAFull cfg0) ["a", "b"] = ["a", "b"] from by
    simp [List.filter, hpa, hpb]]
  rfl

/-- If a pattern avoiding the replacement character `b` leads the output
of `replaceAllGo`, it already led the input. -/
theorem leadsWith_replaceAllGo (frm : List Char) (b : Char) :
    ∀ (f : Nat) (s t : List Char), t ≠ [] → b ∉ t →
      leadsWith t (replaceAllGo frm [b] f s) = true → leadsWith t s = true := by
  intro f
  induction f with
  | zero =>
    intro s t ht hbt h
    cases s with
    | nil =>
      cases t with
      | nil => exact absurd rfl ht
      | cons t0 ts => simp [replaceAllGo, leadsWith] at h
    | cons c rest =>
      simpa only [replaceAllGo] using h
  | succ f ih =>
    intro s t ht hbt h
    cases s with
    | nil =>
      cases t with
      | nil => exact absurd rfl ht
      | cons t0 ts => simp [replaceAllGo, leadsWith] at h
    | cons c rest =>
      by_cases hm : leadsWith frm (c :: rest) = true
      · rw [replaceAllGo, if_pos hm] at h
        cases t with
        | nil => exact absurd rfl ht
        | cons t0 ts =>
          simp only [List.singleton_append, leadsWith, Bool.and_eq_true,
            decide_eq_true_eq] at h
          exact absurd (h.1 ▸ List.mem_cons_self t0 ts) hbt
      · rw [replaceAllGo, if_neg hm] at h
        cases t with
        | nil => exact absurd rfl ht
        | cons t0 ts =>
          simp only [leadsWith, Bool.and_eq_true, decide_eq_true_eq] at h ⊢
          refine ⟨h.1, ?_⟩
          cases ts with
          | nil => cases rest <;> simp [leadsWith]
          | cons u us =>
            exact ih rest (u :: us) (by simp) (fun hmem => hbt (List.mem_cons_of_mem _ hmem)) h.2

/-- After `replaceAllGo` with a single replacement character that does
not occur in the (non-empty) needle, the needle occurs nowhere in the
output. -/
theorem containsSeq_replaceAllGo (frm : List Char) (b : Char) (hfe : frm ≠ []) (hb : b ∉ frm) :
    ∀ (f : Nat) (s : List Char), s.length ≤ f →
      containsSeq frm (replaceAllGo frm [b] f s) = false := by
  have hlen1 : 1 ≤ frm.length := List.length_pos.mpr hfe
  intro f
  induction f with
  | zero =>
    intro s hl
    have hs : s = [] := List.length_eq_zero.mp (Nat.le_zero.mp hl)
    subst hs
    cases frm with
    | nil => exact absurd rfl hfe
    | cons a as => simp [replaceAllGo, containsSeq, leadsWith]
  | succ f ih =>
    intro s hl
    cases s with
    | nil =>
      cases frm with
      | nil => exact absurd rfl hfe
      | cons a as => simp [replaceAllGo, containsSeq, leadsWith]
    | cons c rest =>
      by_cases hm : leadsWith frm (c :: rest) = true
      · rw [replaceAllGo, if_pos hm]
        have hdrop : (List.drop frm.length (c :: rest)).length ≤ f := by
          rw [List.length_drop]
          simp only [List.length_cons] at hl ⊢
          omega
        rw [List.singleton_append]
        show (leadsWith frm (b :: replaceAllGo frm [b] f (List.drop frm.length (c :: rest))) ||
          containsSeq frm (replaceAllGo frm [b] f (List.drop frm.length (c :: rest)))) = false
        rw [ih _ hdrop, Bool.or_false]
        cases frm with
        | nil => exact absurd rfl hfe
        | cons a as =>
          have hab : ¬ (a = b) := fun hab => hb (hab ▸ List.mem_cons_self a as)
          simp [leadsWith, hab]
      · have heq : replaceAllGo frm [b] (Nat.succ f) (c :: rest) =
            c :: replaceAllGo frm [b] f rest := by
          rw [replaceAllGo, if_neg hm]
        rw [heq]
        show (leadsWith frm (c :: replaceAllGo frm [b] f rest) ||
          containsSeq frm (replaceAllGo frm [b] f rest)) = false
        have hrest : rest.length ≤ f := by
          simp only [List.length_cons] at hl
          omega
        rw [ih rest hrest, Bool.or_false]
        cases hlw : leadsWith frm (c :: replaceAllGo frm [b] f rest) with
        | false => rfl
        | true =>
          exfalso
          have h1 : leadsWith frm (replaceAllGo frm [b] (Nat.succ f) (c :: rest)) = true := by
            rw [heq]
            exact hlw
          exact hm (leadsWith_replaceAllGo frm b (Nat.succ f) (c :: rest) frm hfe hb h1)

/-- If a pattern avoiding `b` leads the image of a map that only fixes
characters or sends them to `b`, it leads the original list. -/
theorem leadsWith_map (b : Char) (g : Char → Char) (hg : ∀ x, g x = x ∨ g x = b) :
    ∀ (t s : List Char), b ∉ t → leadsWith t (s.map g) = true → leadsWith t s = true := by
  intro t
  induction t with
  | nil => intro s _ _; rfl
  | cons t0 ts ih =>
    intro s hbt h
    cases s with
    | nil => simp [List.map_nil, leadsWith] at h
    | cons c rest =>
      simp only [List.map_cons, leadsWith, Bool.and_eq_true, decide_eq_true_eq] at h ⊢
      rcases hg c with hc | hc
      · exact ⟨by rw [h.1, hc], ih rest (fun hmem => hbt (List.mem_cons_of_mem _ hmem)) h.2⟩
      · exact absurd ((h.1.trans hc) ▸ List.mem_cons_self t0 ts) hbt

/-- Occurrence transfer along a character map that only fixes characters
or sends them to `b`, for a pattern avoiding `b`. -/
theorem containsSeq_map (pat : List Char) (b : Char) (g : Char → Char)
    (hg : ∀ x, g x = x ∨ g x = b) (hb : b ∉ pat) :
    ∀ (s : List Char), containsSeq pat (s.map g) = true → containsSeq pat s = true := by
  intro s
  induction s with
  | nil => intro h; simpa using h
  | cons c rest ih =>
    intro h
    simp only [List.map_cons, containsSeq, Bool.or_eq_true] at h ⊢
    rcases h with h | h
    · left
      exact leadsWith_map b g hg pat (c :: rest) hb (by simpa using h)
    · right
      exact ih h

/-- The parser's ETX normalisation leaves no occurrence of the literal
escape sequence for U+0003 in the stored value. -/
theorem etxNormalize_no_escape (s : List Char) :
    containsSeq etxEscape (etxNormalize s) = false := by
  unfold etxNormalize replaceChar
  have hb : '\r' ∉ etxEscape := by decide
  cases h : containsSeq etxEscape
      ((replaceAll s etxEscape ['\r']).map fun c => if c = '\x03' then '\r' else c) with
  | false => rfl
  | true =>
    exfalso
    have h2 := containsSeq_map etxEscape '\r' (fun c => if c = '\x03' then '\r' else c)
      (fun x => by by_cases hx : x = '\x03' <;> simp [hx]) hb
      (replaceAll s etxEscape ['\r']) h
    have h3 : containsSeq etxEscape (replaceAll s etxEscape ['\r']) = false := by
      unfold replaceAll
      rw [if_neg (by decide : ¬ (etxEscape.isEmpty = true))]
      exact containsSeq_replaceAllGo etxEscape '\r' (by decide) hb s.length s le_rfl
    rw [h2] at h3
    cases h3

/-- The parser's ETX normalisation leaves no raw ETX byte in the stored
value. -/
theorem etxNormalize_no_byte (s : List Char) : '\x03' ∉ etxNormalize s := by
  unfold etxNormalize replaceChar
  intro hmem
  rcases List.mem_map.mp hmem with ⟨c, _, hc⟩
  by_cases hc3 : c = '\x03'
  · rw [if_pos hc3] at hc
    cases hc
  · rw [if_neg hc3] at hc
    exact hc3 hc

/-- Amended C8.  The override-document parser normalises only the `value`
field before storage: the stored value contains neither the literal
escape sequence for U+0003 nor the raw ETX byte, while the
`fallbackText` field is stored verbatim, without any normalisation. -/
theorem value_normalization_amended (minS maxS : ℚ) (fb : List Char) (box : ℚ)
    (v : List Char) :
    (mkLayerOverride minS maxS fb box v).fallbackText = fb ∧
    (mkLayerOverride minS maxS fb box v).value = etxNormalize v ∧
    containsSeq etxEscape (mkLayerOverride minS maxS fb box v).value = false ∧
    '\x03' ∉ (mkLayerOverride minS maxS fb box v).value :=
  ⟨rfl, rfl, etxNormalize_no_escape v, etxNormalize_no_byte v⟩

/-- Counterexample to C8.  A `fallbackText` containing the literal escape
sequence for U+0003 is stored by the parser exactly as given: the escape
sequence is still present in the stored entry, so not every string value
stored by the parser has it replaced by the line-break marker. -/
theorem fallbackText_not_normalized_cx :
    (mkLayerOverride 0 0 ("A\\u0003B".toList) 0 []).fallbackText = "A\\u0003B".toList ∧
    containsSeq etxEscape (mkLayerOverride 0 0 ("A\\u0003B".toList) 0 []).fallbackText = true ∧
    "A\\u0003B".toList ≠ etxNormalize ("A\\u0003B".toList) := by
  refine ⟨rfl, by decide, by decide⟩

/-- The style-object search only ever returns the index of an opening
brace. -/
theorem findStyleObjStart_brace (s : List Char) (se : Nat) :
    ∀ (st f v : Nat), findStyleObjStart s se st f = some v → s.get? v = some '{' := by
  intro st f
  induction f generalizing st with
  | zero => intro v h; simp [findStyleObjStart] at h
  | succ f ih =>
    intro v h
    rw [findStyleObjStart] at h
    by_cases h1 : st < se
    · rw [if_pos h1] at h
      cases hfind : strFindFrom s ("\"s\"".toList) st with
      | none => rw [hfind] at h; cases h
      | some sPos =>
        rw [hfind] at h
        simp only at h
        by_cases h2 : se ≤ sPos
        · rw [if_pos h2] at h; cases h
        · rw [if_neg h2] at h
          cases hcol : charFindFrom s ':' sPos with
          | none =>
            rw [hcol] at h
            simp only at h
            exact ih _ _ h
          | some colonPos =>
            rw [hcol] at h
            simp only at h
            by_cases h3 : colonPos < sPos + 10 ∧ colonPos < se
            · rw [if_pos h3] at h
              cases hget : s.get? (advanceWhileLt s isWsJson (colonPos + 20) (colonPos + 1)
                  (s.length + 1)) with
              | none =>
                rw [hget] at h
                simp only at h
                exact ih _ _ h
              | some ch =>
                rw [hget] at h
                simp only at h
                by_cases h4 : ch = '{'
                · rw [if_pos h4] at h
                  simp only at h
                  obtain rfl := Option.some.inj h
                  rw [hget, h4]
                · rw [if_neg h4] at h
                  simp only at h
                  exact ih _ _ h
            · rw [if_neg h3] at h
              simp only at h
              exact ih _ _ h
    · rw [if_neg h1] at h; cases h

/-- The brace-counting scan only returns indices inside the string. -/
theorem braceMatchAux_lt (s : List Char) (limit : Nat) :
    ∀ (f i : Nat) (cnt : Int) (r : Nat), braceMatchAux s limit i cnt f = some r →
      r < s.length := by
  intro f
  induction f with
  | zero => intro i cnt r h; simp [braceMatchAux] at h
  | succ f ih =>
    intro i cnt r h
    rw [braceMatchAux] at h
    by_cases h1 : i < limit
    · rw [if_pos h1] at h
      cases hget : s.get? i with
      | none => rw [hget] at h; cases h
      | some c =>
        rw [hget] at h
        simp only at h
        by_cases h2 : cnt + (if c = '{' then (1 : Int) else 0) - (if c = '}' then 1 else 0) = 0
        · rw [if_pos h2] at h
          obtain rfl : i = r := Option.some.inj h
          by_contra hge
          have hnone : s.get? i = none := List.get?_eq_none.mpr (not_lt.mp hge)
          rw [hnone] at hget
          cases hget
        · rw [if_neg h2] at h
          exact ih _ _ _ h
    · rw [if_neg h1] at h; cases h

/-- The mutator's located style object starts at an opening brace inside
the document. -/
theorem locateStyleObject_lt (json nm : List Char) (o c : Nat)
    (h : locateStyleObject json nm = some (o, c)) : o < json.length := by
  simp only [locateStyleObject] at h
  cases h0 : locateNm json nm with
  | none => rw [h0] at h; cases h
  | some layerNamePos =>
    rw [h0] at h
    simp only at h
    cases h1 : strFindFrom json ("\"t\"".toList) layerNamePos with
    | none => rw [h1] at h; cases h
    | some textDataPos =>
      rw [h1] at h
      simp only at h
      by_cases h2 : min (layerNamePos + 5000) json.length < textDataPos
      · rw [if_pos h2] at h; cases h
      · rw [if_neg h2] at h
        cases h3 : strFindFrom json ("\"d\"".toList) textDataPos with
        | none => rw [h3] at h; cases h
        | some dPos =>
          rw [h3] at h
          simp only at h
          by_cases h4 : textDataPos + 500 < dPos
          · rw [if_pos h4] at h; cases h
          · rw [if_neg h4] at h
            cases h5 : strFindFrom json ("\"k\"".toList) dPos with
            | none => rw [h5] at h; cases h
            | some kPos =>
              rw [h5] at h
              simp only at h
              by_cases h6 : dPos + 200 < kPos
              · rw [if_pos h6] at h; cases h
              · rw [if_neg h6] at h
                cases h7 : charFindFrom json '[' kPos with
                | none => rw [h7] at h; cases h
                | some arrayOpen =>
                  rw [h7] at h
                  simp only at h
                  cases h8 : charFindFrom json '{' arrayOpen with
                  | none => rw [h8] at h; cases h
                  | some elemOpen =>
                    rw [h8] at h
                    simp only at h
                    cases h9 : findStyleObjStart json
                        ((braceMatch json elemOpen (min (elemOpen + 1000) json.length)).getD
                          elemOpen) elemOpen (json.length + 1) with
                    | none => rw [h9] at h; cases h
                    | some styleOpen =>
                      rw [h9] at h
                      simp only at h
                      cases h10 : braceMatch json styleOpen
                          (min (styleOpen + 2000) json.length) with
                      | none => rw [h10] at h; cases h
                      | some styleClose =>
                        rw [h10] at h
                        simp only at h
                        by_cases h11 : styleClose ≤ styleOpen
                        · rw [if_pos h11] at h; cases h
                        · rw [if_neg h11] at h
                          have hoc : styleOpen = o := congrArg Prod.fst (Option.some.inj h)
                          have hbrace := findStyleObjStart_brace json _ elemOpen
                            (json.length + 1) styleOpen h9
                          rw [← hoc]
                          by_contra hge
                          have hnone : json.get? styleOpen = none :=
                            List.get?_eq_none.mpr (not_lt.mp hge)
                          rw [hnone] at hbrace
                          cases hbrace

/-- C9.  For every text mutation of a layer: when the mutator cannot
locate the layer's text-style object the document is returned unchanged;
and when it locates the style object between brace positions `o` and `c`,
every byte of the document outside the located object is identical before
and after the mutation — the prefix up to and including the opening brace
and the suffix from the closing brace onward are preserved byte for byte,
so all other layers' fields and all sibling fields are untouched. -/
theorem modifyTextLayer_locality (json nm newText newSizeStr : List Char) :
    (locateStyleObject json nm = none →
      modifyTextLayerInJson json nm newText newSizeStr = json) ∧
    (∀ o c, locateStyleObject json nm = some (o, c) →
      (modifyTextLayerInJson json nm newText newSizeStr).take (o + 1) = json.take (o + 1) ∧
      (modifyTextLayerInJson json nm newText newSizeStr).drop
          ((modifyTextLayerInJson json nm newText newSizeStr).length - (json.length - c))
        = json.drop c) := by
  constructor
  · intro h
    unfold modifyTextLayerInJson
    rw [h]
  · intro o c h
    have ho : o < json.length := locateStyleObject_lt json nm o c h
    unfold modifyTextLayerInJson
    rw [h]
    simp only
    constructor
    · have hA : (json.take (o + 1)).length = o + 1 := by
        rw [List.length_take]
        omega
      have ht := List.take_left (json.take (o + 1))
        (rewriteStyle (extractRange json (o + 1) c) newSizeStr (escapeText newText) ++
          json.drop c)
      rw [hA] at ht
      rw [List.append_assoc]
      exact ht
    · have hB : (json.drop c).length = json.length - c := List.length_drop _ _
      have hlen1 : ((json.take (o + 1) ++
            rewriteStyle (extractRange json (o + 1) c) newSizeStr (escapeText newText)) ++
            json.drop c).length - (json.length - c)
          = (json.take (o + 1) ++
            rewriteStyle (extractRange json (o + 1) c) newSizeStr (escapeText newText)).length := by
        simp only [List.length_append, hB]
        omega
      rw [hlen1]
      exact List.drop_left _ _

/-- Witness for C9 on the concrete document `docL1`: the style object of
layer `L1` is located between brace positions 49 and 74, and rewriting
the text to `NEW` at size 55.0 preserves the first 50 bytes and the
suffix from byte 74 of the original document. -/
theorem modifyTextLayer_locality_witness :
    locateStyleObject docL1 ("L1".toList) = some (49, 74) ∧
    (modifyTextLayerInJson docL1 ("L1".toList) ("NEW".toList) ("55.0".toList)).take 50 =
      docL1.take 50 ∧
    (modifyTextLayerInJson docL1 ("L1".toList) ("NEW".toList) ("55.0".toList)).drop
        ((modifyTextLayerInJson docL1 ("L1".toList) ("NEW".toList) ("55.0".toList)).length -
          (docL1.length - 74)) = docL1.drop 74 := by
  have hloc : locateStyleObject docL1 ("L1".toList) = some (49, 74) := by decide
  have h := (modifyTextLayer_locality docL1 ("L1".toList) ("NEW".toList) ("55.0".toList)).2
    49 74 hloc
  exact ⟨hloc, h.1, h.2⟩
